import Mathlib

/-!
Shallow embedding of the `file-chunker` content-addressed store.

Byte sequences are `List Nat` (each element a byte value). Machine 32-bit
words in the SHA-256 primitive are `Nat` reduced modulo `2^32` at each
operation. Filesystem state is explicit association lists; fallible
operations return a success flag or `Option` together with the resulting
state, mirroring the exception control flow of the C++ source.
-/

namespace FileChunker

/-! ### SHA-256 primitive (the hash behind `CID::CIDUtility::generateSHA256`)

The C++ source calls OpenSSL's SHA-256; the function itself is the FIPS 180-4
standard, embedded here directly over byte lists. -/

abbrev Bytes := List Nat

def add32 (a b : Nat) : Nat := (a + b) % 4294967296

def rotr (n x : Nat) : Nat := ((x >>> n) ||| (x <<< (32 - n))) % 4294967296

def not32 (x : Nat) : Nat := x ^^^ 4294967295

def bigSigma0 (x : Nat) : Nat := (rotr 2 x) ^^^ (rotr 13 x) ^^^ (rotr 22 x)

def bigSigma1 (x : Nat) : Nat := (rotr 6 x) ^^^ (rotr 11 x) ^^^ (rotr 25 x)

def smallSigma0 (x : Nat) : Nat := (rotr 7 x) ^^^ (rotr 18 x) ^^^ (x >>> 3)

def smallSigma1 (x : Nat) : Nat := (rotr 17 x) ^^^ (rotr 19 x) ^^^ (x >>> 10)

def chValue (e f g : Nat) : Nat := (e &&& f) ^^^ ((not32 e) &&& g)

def majValue (a b c : Nat) : Nat := (a &&& b) ^^^ (a &&& c) ^^^ (b &&& c)

/-- The 64 SHA-256 round constants of FIPS 180-4, written in decimal. -/
def kConst : List Nat :=
  [1116352408, 1899447441, 3049323471, 3921009573, 961987163,
   1508970993, 2453635748, 2870763221, 3624381080, 310598401,
   607225278, 1426881987, 1925078388, 2162078206, 2614888103,
   3248222580, 3835390401, 4022224774, 264347078, 604807628,
   770255983, 1249150122, 1555081692, 1996064986, 2554220882,
   2821834349, 2952996808, 3210313671, 3336571891, 3584528711,
   113926993, 338241895, 666307205, 773529912, 1294757372,
   1396182291, 1695183700, 1986661051, 2177026350, 2456956037,
   2730485921, 2820302411, 3259730800, 3345764771, 3516065817,
   3600352804, 4094571909, 275423344, 430227734, 506948616,
   659060556, 883997877, 958139571, 1322822218, 1537002063,
   1747873779, 1955562222, 2024104815, 2227730452, 2361852424,
   2428436474, 2756734187, 3204031479, 3329325298]

structure H8 where
  a : Nat
  b : Nat
  c : Nat
  d : Nat
  e : Nat
  f : Nat
  g : Nat
  h : Nat
deriving DecidableEq

/-- The initial SHA-256 hash state of FIPS 180-4, written in decimal. -/
def h8Init : H8 :=
  ⟨1779033703, 3144134277, 1013904242, 2773480762,
   1359893119, 2600822924, 528734635, 1541459225⟩

/-- Message-schedule extension: `acc` is the schedule so far, most recent word
first, so `W[t-2]` is `acc.getD 1`, `W[t-7]` is `acc.getD 6`, and so on. -/
def scheduleExt : Nat → List Nat → List Nat
  | 0, acc => acc
  | n + 1, acc =>
      let w := add32 (add32 (smallSigma1 (acc.getD 1 0)) (acc.getD 6 0))
                     (add32 (smallSigma0 (acc.getD 14 0)) (acc.getD 15 0))
      scheduleExt n (w :: acc)

def schedule (block : List Nat) : List Nat := (scheduleExt 48 block.reverse).reverse

def compressStep (st : H8) (kw : Nat × Nat) : H8 :=
  let t1 := add32 (add32 (add32 st.h (bigSigma1 st.e)) (add32 (chValue st.e st.f st.g) kw.1)) kw.2
  let t2 := add32 (bigSigma0 st.a) (majValue st.a st.b st.c)
  ⟨add32 t1 t2, st.a, st.b, st.c, add32 st.d t1, st.e, st.f, st.g⟩

def compressBlock (hst : H8) (block : List Nat) : H8 :=
  let st := (kConst.zip (schedule block)).foldl compressStep hst
  ⟨add32 hst.a st.a, add32 hst.b st.b, add32 hst.c st.c, add32 hst.d st.d,
   add32 hst.e st.e, add32 hst.f st.f, add32 hst.g st.g, add32 hst.h st.h⟩

def lengthBytes (n : Nat) : Bytes :=
  [n >>> 56 % 256, n >>> 48 % 256, n >>> 40 % 256, n >>> 32 % 256,
   n >>> 24 % 256, n >>> 16 % 256, n >>> 8 % 256, n % 256]

def padMessage (msg : Bytes) : Bytes :=
  msg ++ 0x80 :: List.replicate ((119 - msg.length % 64) % 64) 0 ++ lengthBytes (8 * msg.length)

def bytesToWords : Bytes → List Nat
  | b0 :: b1 :: b2 :: b3 :: rest =>
      (b0 * 16777216 + b1 * 65536 + b2 * 256 + b3) :: bytesToWords rest
  | _ => []

/-- Split a list into consecutive pieces of `sz` elements, the last piece
possibly shorter; fuel-based so that the kernel can evaluate it. This is the
splitting loop of `FileManager::processFileIntoChunks` (reads of `CHUNK_SIZE`
bytes, then the `gcount() > 0` remainder), also reused to cut the padded
SHA-256 message into 16-word blocks. -/
def chunksOfFuel (sz : Nat) : Nat → List Nat → List (List Nat)
  | _, [] => []
  | 0, _ :: _ => []
  | fuel + 1, x :: l => (x :: l).take sz :: chunksOfFuel sz fuel ((x :: l).drop sz)

def chunksOf (sz : Nat) (l : List Nat) : List (List Nat) := chunksOfFuel sz l.length l

def sha256words (msg : Bytes) : H8 :=
  (chunksOf 16 (bytesToWords (padMessage msg))).foldl compressBlock h8Init

def wordBytes (w : Nat) : Bytes := [w >>> 24 % 256, w >>> 16 % 256, w >>> 8 % 256, w % 256]

def digestBytes (st : H8) : Bytes :=
  [st.a, st.b, st.c, st.d, st.e, st.f, st.g, st.h].flatMap wordBytes

def hexDigit (n : Nat) : Char := "0123456789abcdef".toList.getD n '0'

/-- One byte rendered as two lowercase hex digits, as the source's
`std::hex << std::setw(2) << std::setfill('0')` loop does. -/
def byteToHex (b : Nat) : List Char := [hexDigit (b / 16 % 16), hexDigit (b % 16)]

/-- Source `CID::CIDUtility::generateSHA256`: lowercase-hex SHA-256 of the byte
buffer. The source's separate empty-buffer branch finalizes a freshly
initialized context, which is the SHA-256 of the empty message. -/
def generateSHA256 (data : Bytes) : String :=
  if data = [] then String.mk ((digestBytes (sha256words [])).flatMap byteToHex)
  else String.mk ((digestBytes (sha256words data)).flatMap byteToHex)

/-! ### Data model and state

`SysState` is the filesystem plus the in-memory reference map: chunk files
keyed by CID, metadata records keyed by logical filename, reference counts
(`std::unordered_map<std::string, int>`), and the other filesystem paths used
as retrieval outputs. Maps are association lists; insertion replaces any
previous binding for the key. -/

def CHUNK_SIZE : Nat := 1024 * 1024

structure Chunk where
  data : Bytes
  cid : String
deriving DecidableEq

/-- The `Chunk` constructor computes the CID from the data at construction. -/
def mkChunk (d : Bytes) : Chunk := ⟨d, generateSHA256 d⟩

structure FileMetadata where
  original_filename : String
  file_size_bytes : Nat
  content_type : String
  created_at : String
  chunk_cids : List String
deriving DecidableEq

abbrev AssocL (α : Type) := List (String × α)

def lookupA {α : Type} : AssocL α → String → Option α
  | [], _ => none
  | p :: m, k => if p.1 = k then some p.2 else lookupA m k

def eraseA {α : Type} : AssocL α → String → AssocL α
  | [], _ => []
  | p :: m, k => if p.1 = k then eraseA m k else p :: eraseA m k

def insertA {α : Type} (m : AssocL α) (k : String) (v : α) : AssocL α :=
  (k, v) :: eraseA m k

structure SysState where
  chunkFiles : AssocL Bytes
  refCounts : AssocL Int
  metaFiles : AssocL FileMetadata
  outFiles : AssocL Bytes
deriving DecidableEq

/-! ### `Chunks::ChunkReferenceManager` -/

/-- Source `increment`: `reference_counts[chunk_cid]++` — `operator[]` default-inserts
0 for an absent key, then increments. -/
def increment (m : AssocL Int) (cid : String) : AssocL Int :=
  insertA m cid ((lookupA m cid).getD 0 + 1)

/-- Source `decrement`: absent or count already `≤ 0` returns 0 and changes nothing;
otherwise decrements and returns the new count. -/
def decrement (m : AssocL Int) (cid : String) : Int × AssocL Int :=
  match lookupA m cid with
  | none => (0, m)
  | some v => if v ≤ 0 then (0, m) else (v - 1, insertA m cid (v - 1))

/-- Source `getCount`: current count, 0 if absent. -/
def getCount (m : AssocL Int) (cid : String) : Int := (lookupA m cid).getD 0

/-! ### `Chunks::Chunk` persistence -/

/-- Source `Chunk::save`: if `<chunks_dir>/<cid>` already exists, do nothing and
report success; otherwise write the data. `wOk` is the I/O oracle deciding
whether a fresh write of this CID succeeds; a failed write throws, modelled
as a `false` flag with the file not materialized. -/
def chunkSave (wOk : String → Bool) (σ : SysState) (c : Chunk) : Bool × SysState :=
  match lookupA σ.chunkFiles c.cid with
  | some _ => (true, σ)
  | none =>
      if wOk c.cid then (true, {σ with chunkFiles := insertA σ.chunkFiles c.cid c.data})
      else (false, σ)

/-- Source `Chunk::loadData`: the bytes at `<chunks_dir>/<cid>`, `none` if absent. -/
def chunkLoadData (σ : SysState) (cid : String) : Option Bytes := lookupA σ.chunkFiles cid

/-! ### `Metadata::FileMetadata` persistence -/

/-- Source `FileMetadata::save`: write the record at `<metadata_dir>/<filename>.json`,
fully overwriting any prior content. -/
def metaSave (σ : SysState) (m : FileMetadata) : SysState :=
  {σ with metaFiles := insertA σ.metaFiles m.original_filename m}

/-- Source `FileMetadata::load`: `none` when the metadata file does not exist
(the source throws). -/
def metaLoad (σ : SysState) (f : String) : Option FileMetadata := lookupA σ.metaFiles f

/-! ### `FileManager` orchestration -/

/-- Source `FileManager::processFileIntoChunks`: split the input into `CHUNK_SIZE`
pieces in order (final piece possibly shorter, zero-byte input gives no
chunks); each `Chunk` carries the CID computed at construction. -/
def processFileIntoChunks (content : Bytes) : List Chunk :=
  (chunksOf CHUNK_SIZE content).map mkChunk

/-- The per-chunk loop shared by `uploadFile` and `updateFile`:
`chunk.save(config); ref_manager.increment(chunk.cid);` for each chunk in
order, aborting at the first save failure (the C++ exception propagates). -/
def saveAndIncrAll (wOk : String → Bool) : SysState → List Chunk → Bool × SysState
  | σ, [] => (true, σ)
  | σ, c :: cs =>
      let r := chunkSave wOk σ c
      if r.1 then saveAndIncrAll wOk {r.2 with refCounts := increment r.2.refCounts c.cid} cs
      else (false, r.2)

/-- Source `FileManager::uploadFile`. Here `input` is `none` when the input path does not
exist or cannot be opened (the exception fires before any state change);
`now` is the wall-clock timestamp the `FileMetadata` constructor generates. -/
def uploadFile (wOk : String → Bool) (σ : SysState) (input : Option Bytes)
    (original_filename content_type now : String) : Option FileMetadata × SysState :=
  match input with
  | none => (none, σ)
  | some content =>
      let chunks := processFileIntoChunks content
      let chunk_cids := chunks.map Chunk.cid
      let r := saveAndIncrAll wOk σ chunks
      if r.1 then
        let m : FileMetadata :=
          ⟨original_filename, content.length, content_type, now, chunk_cids⟩
        (some m, metaSave r.2 m)
      else (none, r.2)

/-- Source `FileManager::deleteChunkFileIfUnreferenced`: decrement, and when the
returned count is 0, remove the chunk file if it exists. A `fs::remove`
throw is caught in the source and only flips the returned flag; removal
itself is modelled as succeeding. -/
def deleteChunkFileIfUnreferenced (σ : SysState) (cid : String) : Bool × SysState :=
  let r := decrement σ.refCounts cid
  let σ1 : SysState := {σ with refCounts := r.2}
  if r.1 = 0 then
    match lookupA σ1.chunkFiles cid with
    | some _ => (true, {σ1 with chunkFiles := eraseA σ1.chunkFiles cid})
    | none => (false, σ1)
  else (false, σ1)

/-- Source `FileManager::deleteFile`: load metadata (failure → `false`), run the
removal pass over `chunk_cids` in order, then delete the metadata record. -/
def deleteFile (σ : SysState) (original_filename : String) : Bool × SysState :=
  match metaLoad σ original_filename with
  | none => (false, σ)
  | some m =>
      let σ1 := m.chunk_cids.foldl (fun s c => (deleteChunkFileIfUnreferenced s c).2) σ
      (true, {σ1 with metaFiles := eraseA σ1.metaFiles original_filename})

/-- The `std::set` difference in `updateFile`: CIDs of the old record not
present among the new CIDs, each once. The source produces them in sorted
order; order is irrelevant here because decrements of distinct keys commute,
so first-occurrence order is used. -/
def setDiffCids (olds news : List String) : List String :=
  olds.dedup.filter (fun c => decide (c ∉ news))

/-- Source `FileManager::updateFile`: load the old record (absent → error), chunk the
new input, save-and-increment every new chunk, decrement (with GC) each CID
in old-minus-new, then overwrite the metadata record. -/
def updateFile (wOk : String → Bool) (σ : SysState) (original_filename : String)
    (newInput : Option Bytes) (new_content_type now : String) :
    Option FileMetadata × SysState :=
  match metaLoad σ original_filename with
  | none => (none, σ)
  | some old_metadata =>
      match newInput with
      | none => (none, σ)
      | some content =>
          let new_file_chunks := processFileIntoChunks content
          let new_chunk_cids := new_file_chunks.map Chunk.cid
          let cids_to_decrement := setDiffCids old_metadata.chunk_cids new_chunk_cids
          let r := saveAndIncrAll wOk σ new_file_chunks
          if r.1 then
            let σ2 := cids_to_decrement.foldl
              (fun s c => (deleteChunkFileIfUnreferenced s c).2) r.2
            let m : FileMetadata :=
              ⟨original_filename, content.length, new_content_type, now, new_chunk_cids⟩
            (some m, metaSave σ2 m)
          else (none, r.2)

/-- The chunk-writing loop of `retrieveFile`: for each CID in order, load its
bytes (absent → throw) and append them to the output file; `wOk i` is the
I/O oracle for the `ofs.write` of the `i`-th chunk. -/
def writeChunksLoop (wOk : Nat → Bool) :
    SysState → String → List String → Nat → Bool × SysState
  | σ, _, [], _ => (true, σ)
  | σ, outp, cid :: rest, i =>
      match chunkLoadData σ cid with
      | none => (false, σ)
      | some d =>
          if wOk i then
            writeChunksLoop wOk
              {σ with outFiles :=
                insertA σ.outFiles outp (((lookupA σ.outFiles outp).getD []) ++ d)}
              outp rest (i + 1)
          else (false, σ)

/-- The catch-block cleanup of `retrieveFile`:
`if (fs::exists(output_filepath)) fs::remove(output_filepath);`. -/
def removeIfExists (σ : SysState) (p : String) : SysState :=
  match lookupA σ.outFiles p with
  | some _ => {σ with outFiles := eraseA σ.outFiles p}
  | none => σ

/-- Source `FileManager::retrieveFile`: load metadata (absent → catch), open the
output stream (creating/truncating the output file), write every chunk in
order; any exception lands in the catch block, which removes whatever exists
at the output path and returns `false`. -/
def retrieveFile (wOk : Nat → Bool) (σ : SysState)
    (original_filename output_filepath : String) : Bool × SysState :=
  match metaLoad σ original_filename with
  | none => (false, removeIfExists σ output_filepath)
  | some metadata =>
      let σ1 : SysState := {σ with outFiles := insertA σ.outFiles output_filepath []}
      let r := writeChunksLoop wOk σ1 output_filepath metadata.chunk_cids 0
      if r.1 then (true, r.2) else (false, removeIfExists r.2 output_filepath)

/-- Source `FileManager::retrieveChunk`: load a chunk's bytes by CID. -/
def retrieveChunk (σ : SysState) (cid : String) : Option Bytes := chunkLoadData σ cid

/-- Number of currently stored metadata records whose `chunk_cids` include the
given CID — the quantity the Reference Registry is specified to track. -/
def recordsContaining (σ : SysState) (cid : String) : Nat :=
  (σ.metaFiles.filter (fun p => decide (cid ∈ p.2.chunk_cids))).length

/-! ### Hypothesis predicates and concrete example states -/

/-- Every stored chunk file sits at the path named by the hash of its bytes —
the ground-truth relation the chunk store maintains. -/
def StoreConsistent (σ : SysState) : Prop :=
  ∀ p ∈ σ.chunkFiles, p.1 = generateSHA256 p.2

/-- No SHA-256 collision among the byte sequences this upload touches: the
already-stored chunk bodies and the pieces of the new content. The spec
assumes hash collisions are impossible; this is that assumption restricted
to the finitely many sequences in play. -/
def NoCollisionFor (σ : SysState) (content : Bytes) : Prop :=
  ∀ d1 ∈ σ.chunkFiles.map Prod.snd ++ chunksOf CHUNK_SIZE content,
    ∀ d2 ∈ σ.chunkFiles.map Prod.snd ++ chunksOf CHUNK_SIZE content,
      generateSHA256 d1 = generateSHA256 d2 → d1 = d2

def emptyState : SysState := ⟨[], [], [], []⟩

/-- CID of the one-byte file `[7]`. -/
def exCid : String := generateSHA256 [7]

/-- A state holding one uploaded file `"f"` whose single chunk is `[7]`:
the chunk file exists, its reference count is 1, and one metadata record
lists it. Exactly the state `uploadFile` produces from `emptyState`. -/
def oneFileState : SysState :=
  ⟨[(exCid, [7])], [(exCid, 1)],
   [("f", ⟨"f", 1, "text/plain", "t0", [exCid]⟩)], []⟩

/-! ### Association-list lemmas -/

theorem lookupA_insertA_self {α : Type} (m : AssocL α) (k : String) (v : α) :
    lookupA (insertA m k v) k = some v := by
  simp [insertA, lookupA]

theorem lookupA_eraseA_self {α : Type} (m : AssocL α) (k : String) :
    lookupA (eraseA m k) k = none := by
  induction m with
  | nil => rfl
  | cons p m ih =>
      by_cases h : p.1 = k
      · simp [eraseA, h, ih]
      · simp [eraseA, lookupA, h, ih]

theorem lookupA_eraseA_ne {α : Type} (m : AssocL α) (k k' : String) (h : k' ≠ k) :
    lookupA (eraseA m k) k' = lookupA m k' := by
  induction m with
  | nil => rfl
  | cons p m ih =>
      by_cases hp : p.1 = k
      · rw [show eraseA (p :: m) k = eraseA m k by simp [eraseA, hp], ih,
          show lookupA (p :: m) k' = lookupA m k' by simp [lookupA, hp ▸ Ne.symm h]]
      · simp [eraseA, lookupA, hp, ih]

theorem lookupA_insertA_ne {α : Type} (m : AssocL α) (k k' : String) (v : α) (h : k' ≠ k) :
    lookupA (insertA m k v) k' = lookupA m k' := by
  simp [insertA, lookupA, Ne.symm h, lookupA_eraseA_ne m k k' h]

theorem mem_eraseA {α : Type} {p : String × α} {m : AssocL α} {k : String}
    (h : p ∈ eraseA m k) : p ∈ m := by
  induction m with
  | nil => simp [eraseA] at h
  | cons q m ih =>
      by_cases hq : q.1 = k
      · rw [show eraseA (q :: m) k = eraseA m k by simp [eraseA, hq]] at h
        exact List.mem_cons_of_mem _ (ih h)
      · rw [show eraseA (q :: m) k = q :: eraseA m k by simp [eraseA, hq]] at h
        rcases List.mem_cons.mp h with h | h
        · exact h ▸ List.mem_cons_self _ _
        · exact List.mem_cons_of_mem _ (ih h)

theorem lookupA_mem {α : Type} {m : AssocL α} {k : String} {v : α}
    (h : lookupA m k = some v) : (k, v) ∈ m := by
  induction m with
  | nil => simp [lookupA] at h
  | cons p m ih =>
      by_cases hp : p.1 = k
      · rw [show lookupA (p :: m) k = some p.2 by simp [lookupA, hp]] at h
        have hv : p.2 = v := Option.some.inj h
        have : p = (k, v) := by
          cases p
          simp only [Prod.mk.injEq]
          exact ⟨hp, hv⟩
        exact this ▸ List.mem_cons_self _ _
      · rw [show lookupA (p :: m) k = lookupA m k by simp [lookupA, hp]] at h
        exact List.mem_cons_of_mem _ (ih h)

theorem lookupA_insertA_isSome {α : Type} (m : AssocL α) (k k' : String) (v : α)
    (h : (lookupA m k').isSome) : (lookupA (insertA m k v) k').isSome := by
  by_cases e : k' = k
  · subst e; simp [lookupA_insertA_self]
  · rwa [lookupA_insertA_ne m k k' v e]

/-! ### Chunking lemmas -/

theorem chunksOfFuel_nil (sz fuel : Nat) : chunksOfFuel sz fuel [] = [] := by
  cases fuel <;> rfl

theorem chunksOfFuel_congr (sz : Nat) (hsz : 0 < sz) :
    ∀ (f1 f2 : Nat) (l : List Nat), l.length ≤ f1 → l.length ≤ f2 →
      chunksOfFuel sz f1 l = chunksOfFuel sz f2 l := by
  intro f1
  induction f1 with
  | zero =>
      intro f2 l h1 _
      have : l = [] := List.eq_nil_of_length_eq_zero (Nat.le_zero.mp h1)
      subst this; simp [chunksOfFuel_nil]
  | succ n ih =>
      intro f2 l h1 h2
      cases l with
      | nil => simp [chunksOfFuel_nil]
      | cons x xs =>
          cases f2 with
          | zero => simp at h2
          | succ m =>
              show (x :: xs).take sz :: chunksOfFuel sz n ((x :: xs).drop sz) =
                   (x :: xs).take sz :: chunksOfFuel sz m ((x :: xs).drop sz)
              congr 1
              apply ih
              · simp only [List.length_drop, List.length_cons]
                simp only [List.length_cons] at h1
                omega
              · simp only [List.length_drop, List.length_cons]
                simp only [List.length_cons] at h2
                omega

theorem chunksOf_nil (sz : Nat) : chunksOf sz [] = [] := rfl

theorem chunksOf_cons (sz : Nat) (hsz : 0 < sz) (l : List Nat) (hl : l ≠ []) :
    chunksOf sz l = l.take sz :: chunksOf sz (l.drop sz) := by
  cases l with
  | nil => exact absurd rfl hl
  | cons x xs =>
      show (x :: xs).take sz :: chunksOfFuel sz xs.length ((x :: xs).drop sz) =
           (x :: xs).take sz :: chunksOf sz ((x :: xs).drop sz)
      congr 1
      apply chunksOfFuel_congr sz hsz
      · simp only [List.length_drop, List.length_cons]
        omega
      · exact Nat.le_refl _

theorem chunksOf_eq_nil_iff (sz : Nat) (hsz : 0 < sz) (l : List Nat) :
    chunksOf sz l = [] ↔ l = [] := by
  constructor
  · intro h
    by_contra hl
    rw [chunksOf_cons sz hsz l hl] at h
    simp at h
  · intro h; subst h; rfl

theorem chunksOf_flatMap (sz : Nat) (hsz : 0 < sz) (l : List Nat) :
    (chunksOf sz l).flatMap (fun d => d) = l := by
  suffices H : ∀ (n : Nat) (l : List Nat), l.length ≤ n →
      (chunksOf sz l).flatMap (fun d => d) = l from H l.length l (Nat.le_refl _)
  intro n
  induction n with
  | zero =>
      intro l h
      have : l = [] := List.eq_nil_of_length_eq_zero (Nat.le_zero.mp h)
      subst this; rfl
  | succ n ih =>
      intro l h
      by_cases hl : l = []
      · subst hl; rfl
      · rw [chunksOf_cons sz hsz l hl, List.flatMap_cons,
          ih (l.drop sz) (by simp only [List.length_drop]; omega)]
        exact List.take_append_drop sz l

theorem chunksOf_length_le (sz : Nat) (hsz : 0 < sz) (l : List Nat) :
    ∀ c ∈ chunksOf sz l, c.length ≤ sz := by
  suffices H : ∀ (n : Nat) (l : List Nat), l.length ≤ n →
      ∀ c ∈ chunksOf sz l, c.length ≤ sz from fun c hc => H l.length l (Nat.le_refl _) c hc
  intro n
  induction n with
  | zero =>
      intro l h c hc
      have : l = [] := List.eq_nil_of_length_eq_zero (Nat.le_zero.mp h)
      subst this; simp [chunksOf_nil] at hc
  | succ n ih =>
      intro l h c hc
      by_cases hl : l = []
      · subst hl; simp [chunksOf_nil] at hc
      · rw [chunksOf_cons sz hsz l hl] at hc
        rcases List.mem_cons.mp hc with hc | hc
        · subst hc
          rw [List.length_take]
          exact Nat.min_le_left _ _
        · exact ih (l.drop sz) (by simp only [List.length_drop]; omega) c hc

theorem chunksOf_getD_length (sz : Nat) (hsz : 0 < sz) (l : List Nat) :
    ∀ i : Nat, i + 1 < (chunksOf sz l).length →
      ((chunksOf sz l).getD i []).length = sz := by
  suffices H : ∀ (n : Nat) (l : List Nat), l.length ≤ n →
      ∀ i : Nat, i + 1 < (chunksOf sz l).length →
        ((chunksOf sz l).getD i []).length = sz from
    fun i hi => H l.length l (Nat.le_refl _) i hi
  intro n
  induction n with
  | zero =>
      intro l h i hi
      have : l = [] := List.eq_nil_of_length_eq_zero (Nat.le_zero.mp h)
      subst this; simp [chunksOf_nil] at hi
  | succ n ih =>
      intro l h i hi
      by_cases hl : l = []
      · subst hl; simp [chunksOf_nil] at hi
      · rw [chunksOf_cons sz hsz l hl] at hi ⊢
        cases i with
        | zero =>
            have htl : chunksOf sz (l.drop sz) ≠ [] := by
              intro h0
              rw [h0] at hi
              simp at hi
            have hdrop : l.drop sz ≠ [] := by
              intro h0
              exact htl ((chunksOf_eq_nil_iff sz hsz _).mpr h0)
            have hlen : sz < l.length := by
              by_contra hge
              push_neg at hge
              exact hdrop (List.drop_eq_nil_of_le hge)
            rw [List.getD_cons_zero, List.length_take]
            exact Nat.min_eq_left (Nat.le_of_lt hlen)
        | succ i =>
            rw [List.getD_cons_succ]
            refine ih (l.drop sz) (by simp only [List.length_drop]; omega) i ?_
            simpa using hi

theorem flatMap_congrA {α β : Type} (l : List α) (f g : α → List β)
    (h : ∀ a ∈ l, f a = g a) : l.flatMap f = l.flatMap g := by
  induction l with
  | nil => rfl
  | cons a l ih =>
      rw [List.flatMap_cons, List.flatMap_cons, h a (List.mem_cons_self _ _),
        ih fun b hb => h b (List.mem_cons_of_mem _ hb)]

theorem flatMap_mapA {α β γ : Type} (g : α → β) (f : β → List γ) (l : List α) :
    (l.map g).flatMap f = l.flatMap (fun a => f (g a)) := by
  induction l with
  | nil => rfl
  | cons a l ih => simp [List.flatMap_cons, ih]

/-! ### Chunk-save and save-and-increment loop lemmas -/

theorem chunkSave_true_fst (σ : SysState) (c : Chunk) :
    (chunkSave (fun _ => true) σ c).1 = true := by
  cases h : lookupA σ.chunkFiles c.cid <;> simp [chunkSave, h]

theorem chunkSave_false_snd (wOk : String → Bool) (σ : SysState) (c : Chunk)
    (h : (chunkSave wOk σ c).1 = false) : (chunkSave wOk σ c).2 = σ := by
  cases hl : lookupA σ.chunkFiles c.cid
  · by_cases hw : wOk c.cid <;> simp [chunkSave, hl, hw] at h ⊢
  · simp [chunkSave, hl] at h

theorem chunkSave_metaFiles (wOk : String → Bool) (σ : SysState) (c : Chunk) :
    (chunkSave wOk σ c).2.metaFiles = σ.metaFiles := by
  cases hl : lookupA σ.chunkFiles c.cid
  · by_cases hw : wOk c.cid <;> simp [chunkSave, hl, hw]
  · simp [chunkSave, hl]

theorem chunkSave_outFiles (wOk : String → Bool) (σ : SysState) (c : Chunk) :
    (chunkSave wOk σ c).2.outFiles = σ.outFiles := by
  cases hl : lookupA σ.chunkFiles c.cid
  · by_cases hw : wOk c.cid <;> simp [chunkSave, hl, hw]
  · simp [chunkSave, hl]

theorem chunkSave_chunkFiles_mem (wOk : String → Bool) (σ : SysState) (c : Chunk)
    {p : String × Bytes} (h : p ∈ (chunkSave wOk σ c).2.chunkFiles) :
    p ∈ σ.chunkFiles ∨ p = (c.cid, c.data) := by
  cases hl : lookupA σ.chunkFiles c.cid
  · by_cases hw : wOk c.cid
    · simp only [chunkSave, hl, hw, if_true] at h
      rcases List.mem_cons.mp h with h | h
      · exact Or.inr h
      · exact Or.inl (mem_eraseA h)
    · simp only [chunkSave, hl, hw] at h
      exact Or.inl h
  · simp only [chunkSave, hl] at h
    exact Or.inl h

theorem chunkSave_lookup_isSome (wOk : String → Bool) (σ : SysState) (c : Chunk)
    (k : String) (h : (lookupA σ.chunkFiles k).isSome) :
    (lookupA (chunkSave wOk σ c).2.chunkFiles k).isSome := by
  cases hl : lookupA σ.chunkFiles c.cid
  · by_cases hw : wOk c.cid
    · simp only [chunkSave, hl, hw, if_true]
      exact lookupA_insertA_isSome _ _ _ _ h
    · simpa [chunkSave, hl, hw] using h
  · simpa [chunkSave, hl] using h

theorem chunkSave_true_self (σ : SysState) (c : Chunk) :
    (lookupA (chunkSave (fun _ => true) σ c).2.chunkFiles c.cid).isSome := by
  cases hl : lookupA σ.chunkFiles c.cid
  · simp [chunkSave, hl, lookupA_insertA_self]
  · simp [chunkSave, hl]

theorem saveAndIncrAll_true_fst (cs : List Chunk) : ∀ σ : SysState,
    (saveAndIncrAll (fun _ => true) σ cs).1 = true := by
  induction cs with
  | nil => intro σ; rfl
  | cons c cs ih =>
      intro σ
      simp only [saveAndIncrAll, chunkSave_true_fst, if_true]
      exact ih _

theorem saveAndIncrAll_metaFiles (wOk : String → Bool) (cs : List Chunk) :
    ∀ σ : SysState, (saveAndIncrAll wOk σ cs).2.metaFiles = σ.metaFiles := by
  induction cs with
  | nil => intro σ; rfl
  | cons c cs ih =>
      intro σ
      by_cases h : (chunkSave wOk σ c).1 = true
      · simp only [saveAndIncrAll, h, if_true, ih]
        exact chunkSave_metaFiles wOk σ c
      · simp only [saveAndIncrAll, h, if_false]
        exact chunkSave_metaFiles wOk σ c

theorem saveAndIncrAll_outFiles (wOk : String → Bool) (cs : List Chunk) :
    ∀ σ : SysState, (saveAndIncrAll wOk σ cs).2.outFiles = σ.outFiles := by
  induction cs with
  | nil => intro σ; rfl
  | cons c cs ih =>
      intro σ
      by_cases h : (chunkSave wOk σ c).1 = true
      · simp only [saveAndIncrAll, h, if_true, ih]
        exact chunkSave_outFiles wOk σ c
      · simp only [saveAndIncrAll, h, if_false]
        exact chunkSave_outFiles wOk σ c

theorem saveAndIncrAll_fail_take (wOk : String → Bool) (cs : List Chunk) :
    ∀ σ : SysState, (saveAndIncrAll wOk σ cs).1 = false →
      ∃ k ≤ cs.length,
        (saveAndIncrAll wOk σ cs).2 = (saveAndIncrAll wOk σ (cs.take k)).2 := by
  induction cs with
  | nil => intro σ h; simp [saveAndIncrAll] at h
  | cons c cs ih =>
      intro σ h
      by_cases hs : (chunkSave wOk σ c).1 = true
      · simp only [saveAndIncrAll, hs, if_true] at h
        obtain ⟨k, hk, he⟩ := ih _ h
        refine ⟨k + 1, Nat.succ_le_succ hk, ?_⟩
        simp only [List.take_succ_cons, saveAndIncrAll, hs, if_true]
        exact he
      · refine ⟨0, Nat.zero_le _, ?_⟩
        simp only [saveAndIncrAll, hs, if_false, List.take_zero]
        exact chunkSave_false_snd wOk σ c (Bool.not_eq_true _ ▸ hs)

theorem saveAndIncrAll_chunkFiles_mem (wOk : String → Bool) (cs : List Chunk) :
    ∀ (σ : SysState) (p : String × Bytes),
      p ∈ (saveAndIncrAll wOk σ cs).2.chunkFiles →
        p ∈ σ.chunkFiles ∨ ∃ c ∈ cs, p = (c.cid, c.data) := by
  induction cs with
  | nil => intro σ p h; exact Or.inl h
  | cons c cs ih =>
      intro σ p h
      by_cases hs : (chunkSave wOk σ c).1 = true
      · simp only [saveAndIncrAll, hs, if_true] at h
        rcases ih _ p h with h2 | ⟨c', hc', he⟩
        · rcases chunkSave_chunkFiles_mem wOk σ c h2 with h3 | h3
          · exact Or.inl h3
          · exact Or.inr ⟨c, List.mem_cons_self _ _, h3⟩
        · exact Or.inr ⟨c', List.mem_cons_of_mem _ hc', he⟩
      · simp only [saveAndIncrAll, hs, if_false] at h
        rcases chunkSave_chunkFiles_mem wOk σ c h with h3 | h3
        · exact Or.inl h3
        · exact Or.inr ⟨c, List.mem_cons_self _ _, h3⟩

theorem saveAndIncrAll_lookup_isSome (wOk : String → Bool) (cs : List Chunk) :
    ∀ (σ : SysState) (k : String), (lookupA σ.chunkFiles k).isSome →
      (lookupA (saveAndIncrAll wOk σ cs).2.chunkFiles k).isSome := by
  induction cs with
  | nil => intro σ k h; exact h
  | cons c cs ih =>
      intro σ k h
      by_cases hs : (chunkSave wOk σ c).1 = true
      · simp only [saveAndIncrAll, hs, if_true]
        exact ih _ k (chunkSave_lookup_isSome wOk σ c k h)
      · simp only [saveAndIncrAll, hs, if_false]
        exact chunkSave_lookup_isSome wOk σ c k h

theorem saveAndIncrAll_true_present (cs : List Chunk) :
    ∀ (σ : SysState) (c : Chunk), c ∈ cs →
      (lookupA (saveAndIncrAll (fun _ => true) σ cs).2.chunkFiles c.cid).isSome := by
  induction cs with
  | nil => intro σ c h; simp at h
  | cons c' cs ih =>
      intro σ c h
      simp only [saveAndIncrAll, chunkSave_true_fst, if_true]
      rcases List.mem_cons.mp h with h | h
      · subst h
        exact saveAndIncrAll_lookup_isSome _ cs _ c.cid (chunkSave_true_self σ c)
      · exact ih _ c h

/-! ### Upload and retrieval lemmas -/

theorem processFileIntoChunks_cid (content : Bytes) :
    (processFileIntoChunks content).map Chunk.cid =
      (chunksOf CHUNK_SIZE content).map (fun d => generateSHA256 d) := by
  simp [processFileIntoChunks, List.map_map, mkChunk, Function.comp]

theorem uploadFile_true_eq (σ : SysState) (content : Bytes) (f ct now : String) :
    uploadFile (fun _ => true) σ (some content) f ct now =
      (some ⟨f, content.length, ct, now,
          (chunksOf CHUNK_SIZE content).map (fun d => generateSHA256 d)⟩,
       metaSave (saveAndIncrAll (fun _ => true) σ (processFileIntoChunks content)).2
         ⟨f, content.length, ct, now,
          (chunksOf CHUNK_SIZE content).map (fun d => generateSHA256 d)⟩) := by
  simp only [uploadFile, saveAndIncrAll_true_fst, if_true, processFileIntoChunks_cid]

theorem saveAndIncrAll_consistent (wOk : String → Bool) (σ : SysState) (cs : List Chunk)
    (hcs : ∀ c ∈ cs, c.cid = generateSHA256 c.data) (hcons : StoreConsistent σ) :
    StoreConsistent (saveAndIncrAll wOk σ cs).2 := by
  intro p hp
  rcases saveAndIncrAll_chunkFiles_mem wOk cs σ p hp with h | ⟨c, hc, he⟩
  · exact hcons p h
  · subst he
    exact hcs c hc

theorem upload_lookup_data (σ : SysState) (content : Bytes)
    (hcons : StoreConsistent σ) (hcoll : NoCollisionFor σ content) :
    ∀ d ∈ chunksOf CHUNK_SIZE content,
      lookupA (saveAndIncrAll (fun _ => true) σ (processFileIntoChunks content)).2.chunkFiles
        (generateSHA256 d) = some d := by
  intro d hd
  have hwf : ∀ c ∈ processFileIntoChunks content, c.cid = generateSHA256 c.data := by
    intro c hc
    obtain ⟨e, _, he⟩ := List.mem_map.mp hc
    subst he
    rfl
  have hsome := saveAndIncrAll_true_present (processFileIntoChunks content) σ (mkChunk d)
    (List.mem_map_of_mem mkChunk hd)
  obtain ⟨d', hd'⟩ := Option.isSome_iff_exists.mp hsome
  have hmem : (generateSHA256 d, d') ∈
      (saveAndIncrAll (fun _ => true) σ (processFileIntoChunks content)).2.chunkFiles :=
    lookupA_mem hd'
  have hkey : generateSHA256 d = generateSHA256 d' :=
    saveAndIncrAll_consistent _ σ _ hwf hcons _ hmem
  have hd'set : d' ∈ σ.chunkFiles.map Prod.snd ++ chunksOf CHUNK_SIZE content := by
    rcases saveAndIncrAll_chunkFiles_mem _ _ σ _ hmem with h | ⟨c, hc, he⟩
    · exact List.mem_append_left _ (List.mem_map_of_mem Prod.snd h)
    · obtain ⟨e, he', hee⟩ := List.mem_map.mp hc
      have : d' = e := by
        rw [← hee] at he
        exact (Prod.mk.injEq _ _ _ _ ▸ he).2
      exact this ▸ List.mem_append_right _ he'
  have hdset : d ∈ σ.chunkFiles.map Prod.snd ++ chunksOf CHUNK_SIZE content :=
    List.mem_append_right _ hd
  have : d' = d := hcoll d' hd'set d hdset hkey.symm
  subst this
  exact hd'

theorem metaLoad_metaSave_self (σ : SysState) (m : FileMetadata) :
    metaLoad (metaSave σ m) m.original_filename = some m :=
  lookupA_insertA_self _ _ _

theorem lookupA_removeIfExists_self (σ : SysState) (p : String) :
    lookupA (removeIfExists σ p).outFiles p = none := by
  cases h : lookupA σ.outFiles p
  · simp [removeIfExists, h]
  · simp [removeIfExists, h, lookupA_eraseA_self]

theorem writeChunksLoop_true_fst (cids : List String) :
    ∀ (σ : SysState) (outp : String) (i : Nat),
      (∀ c ∈ cids, (lookupA σ.chunkFiles c).isSome) →
      (writeChunksLoop (fun _ => true) σ outp cids i).1 = true := by
  induction cids with
  | nil => intro σ outp i _; rfl
  | cons c cs ih =>
      intro σ outp i hall
      obtain ⟨d, hd⟩ := Option.isSome_iff_exists.mp (hall c (List.mem_cons_self _ _))
      have hstep : writeChunksLoop (fun _ => true) σ outp (c :: cs) i =
          writeChunksLoop (fun _ => true)
            {σ with outFiles :=
              insertA σ.outFiles outp (((lookupA σ.outFiles outp).getD []) ++ d)}
            outp cs (i + 1) := by
        simp [writeChunksLoop, chunkLoadData, hd]
      rw [hstep]
      exact ih _ outp (i + 1) fun c' hc' => hall c' (List.mem_cons_of_mem _ hc')

theorem writeChunksLoop_success (wOk : Nat → Bool) (cids : List String) :
    ∀ (σ : SysState) (outp : String) (i : Nat) (acc : Bytes),
      lookupA σ.outFiles outp = some acc →
      (writeChunksLoop wOk σ outp cids i).1 = true →
      (∀ c ∈ cids, (lookupA σ.chunkFiles c).isSome) ∧
      lookupA (writeChunksLoop wOk σ outp cids i).2.outFiles outp =
        some (acc ++ cids.flatMap (fun c => (lookupA σ.chunkFiles c).getD [])) := by
  induction cids with
  | nil =>
      intro σ outp i acc hacc _
      exact ⟨by simp, by simpa using hacc⟩
  | cons c cs ih =>
      intro σ outp i acc hacc hsucc
      cases hd : lookupA σ.chunkFiles c with
      | none => simp [writeChunksLoop, chunkLoadData, hd] at hsucc
      | some d =>
          by_cases hw : wOk i = true
          · have hstep : writeChunksLoop wOk σ outp (c :: cs) i =
                writeChunksLoop wOk
                  {σ with outFiles := insertA σ.outFiles outp (acc ++ d)} outp cs (i + 1) := by
              simp [writeChunksLoop, chunkLoadData, hd, hw, hacc]
            rw [hstep] at hsucc ⊢
            have hrec := ih {σ with outFiles := insertA σ.outFiles outp (acc ++ d)} outp
              (i + 1) (acc ++ d) (lookupA_insertA_self _ _ _) hsucc
            refine ⟨?_, ?_⟩
            · intro c' hc'
              rcases List.mem_cons.mp hc' with h | h
              · subst h; simp [hd]
              · exact hrec.1 c' h
            · rw [hrec.2]
              simp only [List.flatMap_cons, hd, Option.getD_some, List.append_assoc]
          · simp [writeChunksLoop, chunkLoadData, hd, hw] at hsucc

/-! ### Claim theorems -/

/-- C5: chunk save is idempotent and write-once — saving a chunk whose CID
path already exists performs no write, leaves the stored bytes for that CID
unchanged, and returns success; and no save ever changes the stored content
of a CID that already exists. -/
theorem c5_chunk_save_idempotent_write_once :
    (∀ (wOk : String → Bool) (σ : SysState) (c : Chunk) (d : Bytes),
        lookupA σ.chunkFiles c.cid = some d → chunkSave wOk σ c = (true, σ)) ∧
    (∀ (wOk : String → Bool) (σ : SysState) (c : Chunk) (cid : String),
        (lookupA σ.chunkFiles cid).isSome →
        lookupA (chunkSave wOk σ c).2.chunkFiles cid = lookupA σ.chunkFiles cid) := by
  constructor
  · intro wOk σ c d h
    simp [chunkSave, h]
  · intro wOk σ c cid h
    cases hl : lookupA σ.chunkFiles c.cid with
    | some d0 => simp [chunkSave, hl]
    | none =>
        by_cases hw : wOk c.cid
        · simp only [chunkSave, hl, hw, if_true]
          have hne : cid ≠ c.cid := by
            intro e
            rw [e, hl] at h
            simp at h
          exact lookupA_insertA_ne _ _ _ _ hne
        · simp [chunkSave, hl, hw]

/-- C5 witness: saving onto an existing CID path returns success and leaves
the state untouched. -/
theorem c5_witness :
    chunkSave (fun _ => true) ⟨[("a", [1])], [], [], []⟩ ⟨[1], "a"⟩ =
      (true, ⟨[("a", [1])], [], [], []⟩) :=
  c5_chunk_save_idempotent_write_once.1 (fun _ => true) _ ⟨[1], "a"⟩ [1] (by decide)

/-- C9: a decrement that returns 0 is treated as count-reached-zero whether or
not a genuine 1-to-0 transition happened: for a CID whose count is 0 or
untracked, `deleteChunkFileIfUnreferenced` removes the chunk file from disk
when it exists, because `decrement` returns 0 both for the absent/zero case
and for the genuine 1-to-0 transition. -/
theorem c9_decrement_zero_conflation :
    (∀ (σ : SysState) (cid : String),
        getCount σ.refCounts cid ≤ 0 →
        (decrement σ.refCounts cid).1 = 0 ∧
        ((lookupA σ.chunkFiles cid).isSome →
          (deleteChunkFileIfUnreferenced σ cid).1 = true ∧
          lookupA (deleteChunkFileIfUnreferenced σ cid).2.chunkFiles cid = none)) ∧
    (∀ (m : AssocL Int) (cid : String),
        lookupA m cid = some 1 → (decrement m cid).1 = 0) := by
  constructor
  · intro σ cid h
    have hdec : decrement σ.refCounts cid = (0, σ.refCounts) := by
      cases hl : lookupA σ.refCounts cid with
      | none => simp [decrement, hl]
      | some v =>
          have hv : v ≤ 0 := by simpa [getCount, hl] using h
          simp [decrement, hl, hv]
    refine ⟨by simp [hdec], ?_⟩
    intro hsome
    obtain ⟨d, hd⟩ := Option.isSome_iff_exists.mp hsome
    constructor
    · simp [deleteChunkFileIfUnreferenced, hdec, hd]
    · simp [deleteChunkFileIfUnreferenced, hdec, hd, lookupA_eraseA_self]
  · intro m cid h
    simp [decrement, h]

/-- C9 witness: an untracked CID decrements to 0 and its on-disk chunk file is
removed by the removal pass. -/
theorem c9_witness :
    (decrement ([] : AssocL Int) "c").1 = 0 ∧
    (deleteChunkFileIfUnreferenced ⟨[("c", [9])], [], [], []⟩ "c").1 = true ∧
    lookupA (deleteChunkFileIfUnreferenced ⟨[("c", [9])], [], [], []⟩ "c").2.chunkFiles "c" =
      none := by
  have h := c9_decrement_zero_conflation.1 ⟨[("c", [9])], [], [], []⟩ "c" (by decide)
  exact ⟨h.1, (h.2 (by decide)).1, (h.2 (by decide)).2⟩

/-- C10: when retrieve fails because no metadata record exists for the
filename — so this call never wrote anything — the cleanup still deletes
whatever file already sits at the output path. -/
theorem c10_retrieve_missing_meta_removes_output (wOk : Nat → Bool) (σ : SysState)
    (f outp : String) (h : metaLoad σ f = none) :
    retrieveFile wOk σ f outp = (false, removeIfExists σ outp) ∧
    lookupA (retrieveFile wOk σ f outp).2.outFiles outp = none := by
  constructor
  · simp [retrieveFile, h]
  · simp [retrieveFile, h, lookupA_removeIfExists_self]

/-- C10 witness: a retrieve of an unknown filename removes the pre-existing
file at the output path. -/
theorem c10_witness :
    retrieveFile (fun _ => true) ⟨[], [], [], [("out", [1, 2])]⟩ "f" "out" =
      (false, ⟨[], [], [], []⟩) :=
  ((c10_retrieve_missing_meta_removes_output (fun _ => true)
      ⟨[], [], [], [("out", [1, 2])]⟩ "f" "out" rfl).1).trans (by decide)

theorem getD_mem_or {α : Type} (l : List α) (n : Nat) (d : α) :
    l.getD n d ∈ l ∨ l.getD n d = d := by
  induction l generalizing n with
  | nil => exact Or.inr (by simp)
  | cons a l ih =>
      cases n with
      | zero => exact Or.inl (by simp)
      | succ n =>
          rcases ih n with h | h
          · exact Or.inl (by rw [List.getD_cons_succ]; exact List.mem_cons_of_mem _ h)
          · exact Or.inr (by rwa [List.getD_cons_succ])

theorem hexDigit_mem (n : Nat) : hexDigit n ∈ "0123456789abcdef".toList := by
  rcases getD_mem_or ("0123456789abcdef".toList) n '0' with h | h
  · exact h
  · rw [hexDigit, h]
    decide

theorem flatMap_byteToHex_length (l : Bytes) : (l.flatMap byteToHex).length = 2 * l.length := by
  induction l with
  | nil => rfl
  | cons b l ih =>
      rw [List.flatMap_cons, List.length_append, ih]
      simp [byteToHex]
      omega

theorem digestBytes_length (st : H8) : (digestBytes st).length = 32 := by
  simp [digestBytes, wordBytes]

theorem generateSHA256_eq (b : Bytes) :
    generateSHA256 b = String.mk ((digestBytes (sha256words b)).flatMap byteToHex) := by
  by_cases hb : b = []
  · subst hb; rfl
  · simp [generateSHA256, hb]

set_option maxRecDepth 100000 in
/-- C6: the CID function is pure and deterministic — equal inputs always give
identical CIDs — its output is a 64-character lowercase-hex string, and the
CID of the empty byte sequence is the SHA-256 empty-input digest. -/
theorem c6_hash_pure_sha256 :
    generateSHA256 [] =
      "e3b0c44298fc1c149afbf4c8996fb92427ae41e4649b934ca495991b7852b855" ∧
    (∀ b1 b2 : Bytes, b1 = b2 → generateSHA256 b1 = generateSHA256 b2) ∧
    (∀ b : Bytes, (generateSHA256 b).length = 64) ∧
    (∀ b : Bytes, ∀ ch ∈ (generateSHA256 b).toList, ch ∈ "0123456789abcdef".toList) := by
  refine ⟨by decide, fun b1 b2 h => by rw [h], ?_, ?_⟩
  · intro b
    rw [generateSHA256_eq]
    show ((digestBytes (sha256words b)).flatMap byteToHex).length = 64
    rw [flatMap_byteToHex_length, digestBytes_length]
  · intro b ch hch
    rw [generateSHA256_eq] at hch
    have hch2 : ch ∈ (digestBytes (sha256words b)).flatMap byteToHex := hch
    obtain ⟨v, _, hv⟩ := List.mem_flatMap.mp hch2
    rcases List.mem_cons.mp hv with h | h
    · exact h ▸ hexDigit_mem _
    · rcases List.mem_cons.mp h with h | h
      · exact h ▸ hexDigit_mem _
      · simp at h

/-- C6 witness: determinism applied at a concrete input. -/
theorem c6_witness : generateSHA256 [1] = generateSHA256 [1] :=
  c6_hash_pure_sha256.2.1 [1] [1] rfl

/-- C7: a 1,500,000-byte input splits into exactly two ordered chunks of
1,048,576 and 451,424 bytes with metadata size 1,500,000; in general every
chunk is at most CHUNK_SIZE bytes and all chunks except possibly the final
one are exactly CHUNK_SIZE bytes. -/
theorem c7_chunk_boundary (l : Bytes) (hlen : l.length = 1500000) :
    (chunksOf CHUNK_SIZE l).map List.length = [1048576, 451424] ∧
    (∀ (σ : SysState) (f ct now : String) (m : FileMetadata),
        (uploadFile (fun _ => true) σ (some l) f ct now).1 = some m →
        m.file_size_bytes = 1500000) ∧
    (∀ l' : Bytes, ∀ c ∈ chunksOf CHUNK_SIZE l', c.length ≤ CHUNK_SIZE) ∧
    (∀ (l' : Bytes) (i : Nat), i + 1 < (chunksOf CHUNK_SIZE l').length →
        ((chunksOf CHUNK_SIZE l').getD i []).length = CHUNK_SIZE) := by
  have hC : (0:Nat) < CHUNK_SIZE := by norm_num [CHUNK_SIZE]
  refine ⟨?_, ?_, fun l' => chunksOf_length_le CHUNK_SIZE hC l',
    fun l' => chunksOf_getD_length CHUNK_SIZE hC l'⟩
  · have h1 : l ≠ [] := by
      intro e
      rw [e] at hlen
      simp at hlen
    have h2 : l.drop CHUNK_SIZE ≠ [] := by
      intro e
      have := congrArg List.length e
      rw [List.length_drop, hlen] at this
      norm_num [CHUNK_SIZE] at this
    have h3 : (l.drop CHUNK_SIZE).drop CHUNK_SIZE = [] := by
      apply List.eq_nil_of_length_eq_zero
      rw [List.length_drop, List.length_drop, hlen]
      norm_num [CHUNK_SIZE]
    rw [chunksOf_cons _ hC _ h1, chunksOf_cons _ hC _ h2, h3, chunksOf_nil]
    simp only [List.map_cons, List.map_nil, List.length_take, List.length_drop, hlen,
      List.cons.injEq, and_true]
    norm_num [CHUNK_SIZE]
  · intro σ f ct now m hm
    rw [uploadFile_true_eq] at hm
    have h2 := Option.some.inj hm
    rw [← h2]
    exact hlen

/-- C7 witness: the two-chunk split at a concrete 1,500,000-byte input. -/
theorem c7_witness :
    (chunksOf CHUNK_SIZE (List.replicate 1500000 0)).map List.length = [1048576, 451424] :=
  (c7_chunk_boundary (List.replicate 1500000 0) (by rw [List.length_replicate])).1

/-- C4: the metadata record is persisted last and only after every chunk is
saved and its reference count incremented; a failed upload leaves exactly the
completed prefix of chunk work in place (saved chunks and incremented counts
are not rolled back) and publishes no metadata record. -/
theorem c4_upload_metadata_last (wOk : String → Bool) (σ : SysState) (content : Bytes)
    (f ct now : String) :
    ((uploadFile wOk σ (some content) f ct now).1 = none →
      (uploadFile wOk σ (some content) f ct now).2.metaFiles = σ.metaFiles ∧
      ∃ k ≤ (processFileIntoChunks content).length,
        (uploadFile wOk σ (some content) f ct now).2 =
          (saveAndIncrAll wOk σ ((processFileIntoChunks content).take k)).2) ∧
    (∀ m, (uploadFile wOk σ (some content) f ct now).1 = some m →
      (saveAndIncrAll wOk σ (processFileIntoChunks content)).1 = true ∧
      (uploadFile wOk σ (some content) f ct now).2 =
        metaSave (saveAndIncrAll wOk σ (processFileIntoChunks content)).2 m) := by
  cases hs : (saveAndIncrAll wOk σ (processFileIntoChunks content)).1 with
  | false =>
      constructor
      · intro _
        refine ⟨?_, ?_⟩
        · simp only [uploadFile, hs, Bool.false_eq_true, if_false]
          exact saveAndIncrAll_metaFiles wOk _ σ
        · obtain ⟨k, hk, he⟩ := saveAndIncrAll_fail_take wOk _ σ hs
          refine ⟨k, hk, ?_⟩
          simp only [uploadFile, hs, Bool.false_eq_true, if_false]
          exact he
      · intro m hm
        simp [uploadFile, hs] at hm
  | true =>
      constructor
      · intro h
        simp [uploadFile, hs] at h
      · intro m hm
        refine ⟨rfl, ?_⟩
        simp only [uploadFile, hs, if_true] at hm ⊢
        have h2 := Option.some.inj hm
        rw [← h2]

set_option maxRecDepth 100000 in
/-- C4 witness: an upload whose first chunk write fails publishes no metadata
record. -/
theorem c4_witness :
    (uploadFile (fun _ => false) emptyState (some [7]) "f" "t" "n").2.metaFiles =
      emptyState.metaFiles :=
  ((c4_upload_metadata_last (fun _ => false) emptyState [7] "f" "t" "n").1 (by decide)).1

/-- C8: retrieve reports success only after the full ordered sequence of chunk
bytes is written to the output; on any failure the partially written output
is removed. -/
theorem c8_retrieve_all_or_cleanup (wOk : Nat → Bool) (σ : SysState) (f outp : String) :
    ((retrieveFile wOk σ f outp).1 = false →
      lookupA (retrieveFile wOk σ f outp).2.outFiles outp = none) ∧
    (∀ m, metaLoad σ f = some m → (retrieveFile wOk σ f outp).1 = true →
      (∀ c ∈ m.chunk_cids, (lookupA σ.chunkFiles c).isSome) ∧
      lookupA (retrieveFile wOk σ f outp).2.outFiles outp =
        some (m.chunk_cids.flatMap (fun c => (lookupA σ.chunkFiles c).getD []))) := by
  cases hm : metaLoad σ f with
  | none =>
      constructor
      · intro _
        simp [retrieveFile, hm, lookupA_removeIfExists_self]
      · intro m hm2
        exact absurd hm2 (by simp)
  | some m0 =>
      have hstart : lookupA ({σ with outFiles := insertA σ.outFiles outp []} : SysState).outFiles
          outp = some [] := lookupA_insertA_self _ _ _
      constructor
      · intro h
        cases hl : (writeChunksLoop wOk {σ with outFiles := insertA σ.outFiles outp []}
            outp m0.chunk_cids 0).1 with
        | true => simp [retrieveFile, hm, hl] at h
        | false =>
            simp only [retrieveFile, hm, hl, Bool.false_eq_true, if_false]
            exact lookupA_removeIfExists_self _ _
      · intro m hmeq hsucc
        have hmm : m0 = m := Option.some.inj hmeq
        subst hmm
        cases hl : (writeChunksLoop wOk {σ with outFiles := insertA σ.outFiles outp []}
            outp m0.chunk_cids 0).1 with
        | false => simp [retrieveFile, hm, hl] at hsucc
        | true =>
            have hres := writeChunksLoop_success wOk m0.chunk_cids
              {σ with outFiles := insertA σ.outFiles outp []} outp 0 [] hstart hl
            refine ⟨hres.1, ?_⟩
            simp only [retrieveFile, hm, hl, if_true]
            rw [hres.2]
            simp

/-- C8 witness: a successful retrieve writes the two chunks in order. -/
theorem c8_witness :
    (retrieveFile (fun _ => true)
        ⟨[("a", [1]), ("b", [2, 3])], [], [("f", ⟨"f", 3, "t", "t0", ["a", "b"]⟩)], []⟩
        "f" "out").1 = true ∧
    lookupA (retrieveFile (fun _ => true)
        ⟨[("a", [1]), ("b", [2, 3])], [], [("f", ⟨"f", 3, "t", "t0", ["a", "b"]⟩)], []⟩
        "f" "out").2.outFiles "out" = some [1, 2, 3] := by
  refine ⟨by decide, ?_⟩
  have h := (c8_retrieve_all_or_cleanup (fun _ => true)
      ⟨[("a", [1]), ("b", [2, 3])], [], [("f", ⟨"f", 3, "t", "t0", ["a", "b"]⟩)], []⟩
      "f" "out").2 ⟨"f", 3, "t", "t0", ["a", "b"]⟩ (by decide) (by decide)
  exact h.2.trans (by decide)

theorem retrieve_of_good (σ' : SysState) (f outp : String) (m : FileMetadata)
    (hml : metaLoad σ' f = some m)
    (hpres : ∀ c ∈ m.chunk_cids, (lookupA σ'.chunkFiles c).isSome) :
    (retrieveFile (fun _ => true) σ' f outp).1 = true ∧
    lookupA (retrieveFile (fun _ => true) σ' f outp).2.outFiles outp =
      some (m.chunk_cids.flatMap (fun c => (lookupA σ'.chunkFiles c).getD [])) := by
  have hloop : (writeChunksLoop (fun _ => true)
      {σ' with outFiles := insertA σ'.outFiles outp []} outp m.chunk_cids 0).1 = true :=
    writeChunksLoop_true_fst _ _ _ _ (fun c hc => hpres c hc)
  have hsucc := writeChunksLoop_success (fun _ => true) m.chunk_cids
    {σ' with outFiles := insertA σ'.outFiles outp []} outp 0 [] (lookupA_insertA_self _ _ _)
    hloop
  constructor
  · simp only [retrieveFile, hml, hloop, if_true]
  · simp only [retrieveFile, hml, hloop, if_true]
    rw [hsucc.2]
    simp

/-- C3: uploading any byte sequence and retrieving it reproduces the original
stream byte-for-byte — the metadata's `chunk_cids` are the hashes of the
ordered pieces, retrieve succeeds, and the output equals the input — and a
zero-byte input yields an empty `chunk_cids` list and a zero-length output. -/
theorem c3_roundtrip (σ : SysState) (content : Bytes) (f ct now outp : String)
    (hcons : StoreConsistent σ) (hcoll : NoCollisionFor σ content) :
    (uploadFile (fun _ => true) σ (some content) f ct now).1 =
      some ⟨f, content.length, ct, now,
        (chunksOf CHUNK_SIZE content).map (fun d => generateSHA256 d)⟩ ∧
    (retrieveFile (fun _ => true)
        (uploadFile (fun _ => true) σ (some content) f ct now).2 f outp).1 = true ∧
    lookupA (retrieveFile (fun _ => true)
        (uploadFile (fun _ => true) σ (some content) f ct now).2 f outp).2.outFiles outp =
      some content ∧
    (content = [] →
      (chunksOf CHUNK_SIZE content).map (fun d => generateSHA256 d) = [] ∧
      lookupA (retrieveFile (fun _ => true)
          (uploadFile (fun _ => true) σ (some content) f ct now).2 f outp).2.outFiles outp =
        some []) := by
  have hC : (0:Nat) < CHUNK_SIZE := by norm_num [CHUNK_SIZE]
  have hup := uploadFile_true_eq σ content f ct now
  have hdata := upload_lookup_data σ content hcons hcoll
  have h1 : (uploadFile (fun _ => true) σ (some content) f ct now).1 =
      some ⟨f, content.length, ct, now,
        (chunksOf CHUNK_SIZE content).map (fun d => generateSHA256 d)⟩ := by rw [hup]
  have h2 : (uploadFile (fun _ => true) σ (some content) f ct now).2 =
      metaSave (saveAndIncrAll (fun _ => true) σ (processFileIntoChunks content)).2
        ⟨f, content.length, ct, now,
         (chunksOf CHUNK_SIZE content).map (fun d => generateSHA256 d)⟩ := by rw [hup]
  have hml : metaLoad
      (metaSave (saveAndIncrAll (fun _ => true) σ (processFileIntoChunks content)).2
        ⟨f, content.length, ct, now,
         (chunksOf CHUNK_SIZE content).map (fun d => generateSHA256 d)⟩) f =
      some ⟨f, content.length, ct, now,
        (chunksOf CHUNK_SIZE content).map (fun d => generateSHA256 d)⟩ :=
    metaLoad_metaSave_self _ _
  have hpres : ∀ c ∈ (chunksOf CHUNK_SIZE content).map (fun d => generateSHA256 d),
      (lookupA (metaSave (saveAndIncrAll (fun _ => true) σ
          (processFileIntoChunks content)).2
        ⟨f, content.length, ct, now,
         (chunksOf CHUNK_SIZE content).map (fun d => generateSHA256 d)⟩).chunkFiles
        c).isSome := by
    intro c hc
    obtain ⟨d, hd, he⟩ := List.mem_map.mp hc
    subst he
    have := hdata d hd
    show (lookupA (saveAndIncrAll (fun _ => true) σ
        (processFileIntoChunks content)).2.chunkFiles (generateSHA256 d)).isSome
    rw [this]
    rfl
  have hgood := retrieve_of_good _ f outp _ hml hpres
  have hflat : ((chunksOf CHUNK_SIZE content).map (fun d => generateSHA256 d)).flatMap
      (fun c => (lookupA (metaSave (saveAndIncrAll (fun _ => true) σ
          (processFileIntoChunks content)).2
        ⟨f, content.length, ct, now,
         (chunksOf CHUNK_SIZE content).map (fun d => generateSHA256 d)⟩).chunkFiles
        c).getD []) = content := by
    rw [flatMap_mapA]
    have hco : ∀ d ∈ chunksOf CHUNK_SIZE content,
        (lookupA (metaSave (saveAndIncrAll (fun _ => true) σ
            (processFileIntoChunks content)).2
          ⟨f, content.length, ct, now,
           (chunksOf CHUNK_SIZE content).map (fun d => generateSHA256 d)⟩).chunkFiles
          (generateSHA256 d)).getD [] = d := by
      intro d hd
      show (lookupA (saveAndIncrAll (fun _ => true) σ
          (processFileIntoChunks content)).2.chunkFiles (generateSHA256 d)).getD [] = d
      rw [hdata d hd]
      rfl
    rw [flatMap_congrA _ _ (fun d => d) hco]
    exact chunksOf_flatMap CHUNK_SIZE hC content
  have hcontent : lookupA (retrieveFile (fun _ => true)
      (uploadFile (fun _ => true) σ (some content) f ct now).2 f outp).2.outFiles outp =
      some content := by
    rw [h2, hgood.2, hflat]
  refine ⟨h1, by rw [h2]; exact hgood.1, hcontent, fun he => ⟨by rw [he]; rfl, ?_⟩⟩
  rw [hcontent, he]

set_option maxRecDepth 1000000 in
/-- C3 witness: round trip at a concrete one-byte input from the empty
state. -/
theorem c3_witness :
    lookupA (retrieveFile (fun _ => true)
        (uploadFile (fun _ => true) emptyState (some [5]) "f" "t" "n").2
        "f" "out").2.outFiles "out" = some [5] :=
  (c3_roundtrip emptyState [5] "f" "t" "n" "out"
    (by unfold StoreConsistent; decide) (by unfold NoCollisionFor; decide)).2.2.1

set_option maxRecDepth 1000000 in
/-- C1: refuted on the code. In `oneFileState` the stored record for `"f"`
lists exactly the CID of `[7]` with reference count 1; updating `"f"` with
the same content `[7]` — so this CID appears in both the old and the new
`chunk_cids` lists — leaves its count at 2, a net change of +1 where the
claim requires 0: `updateFile` increments every chunk of the new content,
reused ones included, and decrements only old-minus-new. -/
theorem c1_update_drift_eval :
    getCount oneFileState.refCounts exCid = 1 ∧
    metaLoad oneFileState "f" = some ⟨"f", 1, "text/plain", "t0", [exCid]⟩ ∧
    (updateFile (fun _ => true) oneFileState "f" (some [7]) "text/plain" "t1").1 =
      some ⟨"f", 1, "text/plain", "t1", [exCid]⟩ ∧
    getCount ((updateFile (fun _ => true) oneFileState "f" (some [7])
        "text/plain" "t1").2).refCounts exCid = 2 := by
  refine ⟨by decide, by decide, by decide, by decide⟩

set_option maxRecDepth 1000000 in
/-- C2: refuted on the code. Starting from the empty state, uploading `"f"`
with content `[7]` and then updating it with the same content leaves the
registry count of the chunk's CID at 2 while exactly one stored metadata
record includes that CID, so the count does not equal the number of stored
records referencing it at a quiescent point. -/
theorem c2_refcount_invariant_eval :
    (let σ1 := (uploadFile (fun _ => true) emptyState (some [7]) "f" "text/plain" "t0").2
     let σ2 := (updateFile (fun _ => true) σ1 "f" (some [7]) "text/plain" "t1").2
     getCount σ2.refCounts exCid = 2 ∧ recordsContaining σ2 exCid = 1) := by
  decide

end FileChunker
